import Mathlib

/-!
# Verification of the massrenamer rename/undo engine

A shallow embedding of the core batch-rename engine of `massrenamer.py`:
input validation (`_get_and_validate_inputs`), conflict detection and
auto-resolution (`_handle_name_conflicts`), sequential execution with
per-item failure tolerance and write-through history persistence
(`_execute_rename`), and the guarded undo operation (`undo`).

All file operations happen inside one destination folder, so the
filesystem is modelled as the finite set of entry names present in that
folder (`Finset String`); `shutil.move src dst` on that view removes
`src` and inserts `dst` (on POSIX an existing `dst` file is silently
overwritten, hence plain `insert`).  External I/O failures (a move
raising, the history-file write raising) are injected through Boolean
oracles indexed by the item position, mirroring the `try/except` blocks
of the source.
-/

namespace MassRenamer

/-- The per-item observable outcome, one constructor per log line shape of
`_execute_rename` / `undo`: the "not found" line, the success line, and the
`except`-branch error line. -/
inductive Outcome where
  | notFound (orig : String)
  | moved (orig newName : String)
  | moveFailed (orig : String)
deriving DecidableEq

/-- `shutil.move` inside a single directory, on the name-set view: the source
entry disappears and the destination name is present afterwards (an existing
destination file is overwritten, not preserved). -/
def moveFile (dir : Finset String) (src dst : String) : Finset String :=
  insert dst (dir.erase src)

/-- `int((processed / total) * 100)` from the source: Python's `int()`
truncates, and for nonnegative exact arithmetic this is floor division.
The float division of the source is modelled as exact rational
arithmetic followed by truncation. -/
def progressPct (processed total : ℕ) : ℕ :=
  processed * 100 / total

/-- External-failure oracles for one execution batch: whether the move
syscall of item `i` succeeds, and whether the history-file write of item `i`
succeeds. -/
structure ExecCfg where
  moveOk : ℕ → Bool
  persistOk : ℕ → Bool

/-- The failure-free configuration: every move and every history write
succeeds. -/
def cfgOK : ExecCfg := ⟨fun _ => true, fun _ => true⟩

/-- Engine state threaded through the `_execute_rename` loop: the directory
contents, the in-memory `temp_history` (pairs `(newName, origName)`, the
source's `(dst, src)`), and the persisted history file (`none` = absent). -/
structure EngineState where
  dir : Finset String
  hist : List (String × String)
  persisted : Option (List (String × String))
deriving DecidableEq

/-- One iteration of the `_execute_rename` loop body for item `i` `(o, n)`:
`os.path.isfile` check, then `shutil.move`; on a successful move the pair is
appended to the history and the history file is rewritten in full.  The
history-file write sits inside the same `try` as the move, so its failure
takes the same `except` branch and yields the same error-line outcome. -/
def execStep (cfg : ExecCfg) (i : ℕ) (s : EngineState) (o n : String) :
    EngineState × Outcome :=
  if o ∈ s.dir then
    if cfg.moveOk i then
      let dir' := moveFile s.dir o n
      let hist' := s.hist ++ [(n, o)]
      if cfg.persistOk i then
        (⟨dir', hist', some hist'⟩, .moved o n)
      else
        (⟨dir', hist', s.persisted⟩, .moveFailed o)
    else
      (s, .moveFailed o)
  else
    (s, .notFound o)

/-- The `_execute_rename` loop over the zipped plan, starting at item index
`i`; `total` is `total_files`.  Each processed item also reports the progress
percentage computed from the incremented `processed_count`, regardless of
its outcome. -/
def execLoop (cfg : ExecCfg) (total : ℕ) :
    ℕ → EngineState → List (String × String) → EngineState × List (Outcome × ℕ)
  | _, s, [] => (s, [])
  | i, s, (o, n) :: rest =>
    let step := execStep cfg i s o n
    let tail := execLoop cfg total (i + 1) step.1 rest
    (tail.1, (step.2, progressPct (i + 1) total) :: tail.2)

/-- The observable result of `_execute_rename`: final directory, the
in-memory history (`temp_history`, extended into `self.rename_history`),
the persisted history file, and the per-item outcome/percentage stream. -/
structure ExecOut where
  dir : Finset String
  hist : List (String × String)
  persisted : Option (List (String × String))
  outs : List (Outcome × ℕ)
deriving DecidableEq

/-- `_execute_rename folder origs news`: on an empty plan it returns before
anything else — in particular before the `os.remove(history_file_path)`
reset, which the source only reaches for a non-empty plan.  For a non-empty
plan the history file is deleted (persisted state starts at `none`) and the
loop runs from item 0. -/
def execRename (cfg : ExecCfg) (dir0 : Finset String)
    (persisted0 : Option (List (String × String)))
    (plan : List (String × String)) : ExecOut :=
  if plan.isEmpty then ⟨dir0, [], persisted0, []⟩
  else
    let r := execLoop cfg plan.length 0 ⟨dir0, [], none⟩ plan
    ⟨r.1.dir, r.1.hist, r.1.persisted, r.2⟩

/-! ## Input validation (`_get_and_validate_inputs`) -/

/-- `ILLEGAL_CHARS_LINUX = set('/')`. -/
def ILLEGAL_CHARS_LINUX : Finset Char := {'/'}

/-- `ILLEGAL_CHARS_WINDOWS = set('/\\:*?"<>|')`. -/
def ILLEGAL_CHARS_WINDOWS : Finset Char :=
  {'/', '\\', ':', '*', '?', '\"', '<', '>', '|'}

/-- `ILLEGAL_CHARS_MACOS = set('/:')`. -/
def ILLEGAL_CHARS_MACOS : Finset Char := {'/', ':'}

/-- `ILLEGAL_CHARS_IOS = set('/:')`. -/
def ILLEGAL_CHARS_IOS : Finset Char := {'/', ':'}

/-- `ILLEGAL_CHARS_ANDROID = set('/\\:*?"<>|')`. -/
def ILLEGAL_CHARS_ANDROID : Finset Char :=
  {'/', '\\', ':', '*', '?', '\"', '<', '>', '|'}

/-- The merged illegal-character set built in `_get_and_validate_inputs`
from the four settings: it starts from `ILLEGAL_CHARS_LINUX.copy()`
("Base for all") unconditionally, then unions in each per-platform set
whose option is enabled. -/
def activePolicy (w m i a : Bool) : Finset Char :=
  (((ILLEGAL_CHARS_LINUX ∪ (if w then ILLEGAL_CHARS_WINDOWS else ∅)) ∪
      (if m then ILLEGAL_CHARS_MACOS else ∅)) ∪
      (if i then ILLEGAL_CHARS_IOS else ∅)) ∪
      (if a then ILLEGAL_CHARS_ANDROID else ∅)

/-- Modelled from the spec: the character policy as the claim words it —
"the union of the per-platform illegal-character sets whose option is
enabled", with no unconditional base set.  Kept separately from
`activePolicy` (which follows the source) for comparison. -/
def activePolicyClaimed (w m i a : Bool) : Finset Char :=
  (((if w then ILLEGAL_CHARS_WINDOWS else ∅) ∪
      (if m then ILLEGAL_CHARS_MACOS else ∅)) ∪
      (if i then ILLEGAL_CHARS_IOS else ∅)) ∪
      (if a then ILLEGAL_CHARS_ANDROID else ∅)

/-- `found_illegal = {ch for name in news for ch in name if ch in illegal_chars}`. -/
def foundIllegal (illegal : Finset Char) (news : List String) : Finset Char :=
  ((news.map String.data).flatten.filter (fun c => decide (c ∈ illegal))).toFinset

/-- `''.join(c for c in n if c not in illegal_chars)`. -/
def stripChars (illegal : Finset Char) (n : String) : String :=
  ⟨n.data.filter (fun c => decide (c ∉ illegal))⟩

/-- The caller-side inputs of `_get_and_validate_inputs`: whether the folder
text names an existing directory, whether it normalizes to the config
directory, the stripped non-blank original and new name lines, the four
character-policy settings, and the operator's yes/no answer to the
strip-illegal-characters prompt. -/
structure ValidationInput where
  folderValid : Bool
  folderForbidden : Bool
  origs : List String
  news : List String
  disallowWindows : Bool
  disallowMacos : Bool
  disallowIos : Bool
  disallowAndroid : Bool
  stripAccepted : Bool

/-- `_get_and_validate_inputs`: invalid folder, forbidden folder, and
length mismatch each return `None`; then the news lines are scanned
against the merged character policy; on a hit the operator either accepts
stripping (the illegal characters are removed from every new name) or the
call returns `None`. -/
def validateInputs (v : ValidationInput) : Option (List String × List String) :=
  if v.folderValid = false then none
  else if v.folderForbidden = true then none
  else if v.origs.length ≠ v.news.length then none
  else
    let illegal := activePolicy v.disallowWindows v.disallowMacos v.disallowIos v.disallowAndroid
    if foundIllegal illegal v.news = ∅ then some (v.origs, v.news)
    else if v.stripAccepted then some (v.origs, v.news.map (stripChars illegal))
    else none

/-! ## Conflict detection and auto-resolution (`_handle_name_conflicts`) -/

/-- Whether index `i` of `news` conflicts: `news[i]` already exists in the
folder (existence check), or occurs more than once in `news` (`Counter`
duplicate check). -/
def conflictsAt (dir : Finset String) (news : List String) (i : ℕ) : Prop :=
  news.getD i "" ∈ dir ∨ 1 < news.count (news.getD i "")

instance (dir : Finset String) (news : List String) (i : ℕ) :
    Decidable (conflictsAt dir news i) := by
  unfold conflictsAt; infer_instance

/-- `sorted(list(conflicting_indices))`: the conflicting indices in
ascending order.  Filtering `range` already enumerates ascending, which is
exactly what sorting the Python set produces. -/
def conflictList (dir : Finset String) (news : List String) : List ℕ :=
  (List.range news.length).filter (fun i => decide (conflictsAt dir news i))

/-- The conflict set of `_handle_name_conflicts`. -/
def conflictIndices (dir : Finset String) (news : List String) : Finset ℕ :=
  (conflictList dir news).toFinset

/-- Index of the last `'.'` in a character list, if any. -/
def lastDotIdx : List Char → Option ℕ
  | [] => none
  | c :: rest =>
    match lastDotIdx rest with
    | some i => some (i + 1)
    | none => if c = '.' then some 0 else none

/-- `os.path.splitext` on a bare file name (no path separators): split at
the last dot, unless every character before that dot is itself a dot
(leading-dots rule of CPython `genericpath._splitext`), in which case the
extension is empty. -/
def splitext (s : String) : String × String :=
  match lastDotIdx s.data with
  | none => (s, "")
  | some d =>
    if (s.data.take d).all (fun c => decide (c = '.')) then (s, "")
    else (⟨s.data.take d⟩, ⟨s.data.drop d⟩)

/-- The candidate `f"{base}_({count}){ext}"`. -/
def candName (base ext : String) (k : ℕ) : String :=
  base ++ "_(" ++ Nat.repr k ++ ")" ++ ext

/-- The `while True` search of the auto-resolve branch: the first `k`
(counting up from the given start) whose candidate neither exists in the
folder nor occurs in the current working list `temp`.  The unbounded
source loop is modelled with explicit fuel; `none` means the fuel ran
out before a free candidate appeared. -/
def findFree (dir : Finset String) (temp : List String) (base ext : String) :
    ℕ → ℕ → Option String
  | 0, _ => none
  | fuel + 1, k =>
    let cand := candName base ext k
    if cand ∉ dir ∧ cand ∉ temp then some cand
    else findFree dir temp base ext fuel (k + 1)

/-- The auto-resolve loop over the sorted conflicting indices: each conflict
looks up its original name `c.name = news[i]` in the untouched input list,
splits it, finds the first free suffixed candidate against the folder and
the current working list, and writes it into the working list before the
next conflict is visited. -/
def resolveLoop (fuel : ℕ) (dir : Finset String) (orig : List String) :
    List ℕ → List String → Option (List String)
  | [], temp => some temp
  | i :: rest, temp =>
    let be := splitext (orig.getD i "")
    match findFree dir temp be.1 be.2 fuel 1 with
    | none => none
    | some cand => resolveLoop fuel dir orig rest (temp.set i cand)

/-- The three buttons of the conflict dialog. -/
inductive ConflictChoice where
  | autoResolve
  | list
  | cancel
deriving DecidableEq

/-- `_handle_name_conflicts`: with an empty conflict set the news list is
returned untouched and no dialog is shown; otherwise the list and cancel
buttons abort (`None`), and the rename button runs the auto-resolve loop
over the ascending conflict indices on a copy of the list. -/
def handleNameConflicts (fuel : ℕ) (dir : Finset String) (news : List String)
    (choice : ConflictChoice) : Option (List String) :=
  if conflictList dir news = [] then some news
  else
    match choice with
    | .autoResolve => resolveLoop fuel dir news (conflictList dir news) news
    | .list => none
    | .cancel => none

/-! ## The `rename` entry point and the session state -/

/-- The state an operator session carries across operations: the folder
contents, `self.rename_history`, and the persisted history file. -/
structure Session where
  dir : Finset String
  memHistory : List (String × String)
  persisted : Option (List (String × String))
deriving DecidableEq

/-- `rename`: clears `self.rename_history` first, then validates; a `None`
from validation or from conflict handling returns with nothing else
touched; otherwise the executor runs on the zipped plan and its
`temp_history` becomes the new in-memory history
(`self.rename_history.extend(temp_history)` after the clear). -/
def renameOp (fuel : ℕ) (cfg : ExecCfg) (s : Session) (v : ValidationInput)
    (choice : ConflictChoice) : Session × List (Outcome × ℕ) :=
  match validateInputs v with
  | none => (⟨s.dir, [], s.persisted⟩, [])
  | some (origs, news0) =>
    match handleNameConflicts fuel s.dir news0 choice with
    | none => (⟨s.dir, [], s.persisted⟩, [])
    | some news =>
      let e := execRename cfg s.dir s.persisted (origs.zip news)
      (⟨e.dir, e.hist, e.persisted⟩, e.outs)

/-- The result tag of one `undo` invocation. -/
inductive UndoResult where
  | noHistory
  | refusedSafety
  | cancelled
  | done
deriving DecidableEq

/-- The `undo` loop over `reversed(self.rename_history)`: each recorded pair
`(dst, src)` is moved back `dst → src`; a missing `dst` makes `shutil.move`
raise, which the source catches, logs, and skips past. -/
def undoLoop (total : ℕ) :
    ℕ → Finset String → List (String × String) → Finset String × List (Outcome × ℕ)
  | _, dir, [] => (dir, [])
  | k, dir, (dst, src) :: rest =>
    if dst ∈ dir then
      let tail := undoLoop total (k + 1) (moveFile dir dst src) rest
      (tail.1, (.moved dst src, progressPct (k + 1) total) :: tail.2)
    else
      let tail := undoLoop total (k + 1) dir rest
      (tail.1, (.moveFailed dst, progressPct (k + 1) total) :: tail.2)

/-- The observable result of one `undo` invocation. -/
structure UndoOut where
  result : UndoResult
  dir : Finset String
  memHistory : List (String × String)
  persisted : Option (List (String × String))
  outs : List (Outcome × ℕ)
deriving DecidableEq

/-- `undo`: an empty in-memory history returns at once; then the safety
check requires every recorded `currentPath` to exist, before the yes/no
confirmation is ever shown; then the confirmation; then the reversed loop,
after which the in-memory history is cleared and the history file removed
unconditionally. -/
def undoOp (dir : Finset String) (memHist : List (String × String))
    (persisted : Option (List (String × String))) (confirm : Bool) : UndoOut :=
  if memHist.isEmpty then ⟨.noHistory, dir, memHist, persisted, []⟩
  else if _h : ∀ p ∈ memHist, p.1 ∈ dir then
    if confirm then
      let r := undoLoop memHist.length 0 dir memHist.reverse
      ⟨.done, r.1, [], none, r.2⟩
    else ⟨.cancelled, dir, memHist, persisted, []⟩
  else ⟨.refusedSafety, dir, memHist, persisted, []⟩

/-! ## Loop bookkeeping lemmas -/

/-- The history pairs recorded by a run, read off its outcome stream: one
`(newName, origName)` pair per `moved` outcome, in order. -/
def movedPairs (outs : List (Outcome × ℕ)) : List (String × String) :=
  outs.filterMap (fun x =>
    match x.1 with
    | .moved o n => some (n, o)
    | _ => none)

theorem execLoop_length (cfg : ExecCfg) (total : ℕ) (plan : List (String × String)) :
    ∀ (i : ℕ) (s : EngineState), (execLoop cfg total i s plan).2.length = plan.length := by
  induction plan with
  | nil => intro i s; rfl
  | cons p rest ih =>
    intro i s
    obtain ⟨o, n⟩ := p
    simp [execLoop, ih]

theorem undoLoop_length (total : ℕ) (hist : List (String × String)) :
    ∀ (k : ℕ) (dir : Finset String), (undoLoop total k dir hist).2.length = hist.length := by
  induction hist with
  | nil => intro k dir; rfl
  | cons p rest ih =>
    intro k dir
    obtain ⟨dst, src⟩ := p
    by_cases h : dst ∈ dir <;> simp [undoLoop, h, ih]

theorem undoLoop_append (total : ℕ) (a b : List (String × String)) :
    ∀ (k : ℕ) (dir : Finset String),
      undoLoop total k dir (a ++ b) =
        ((undoLoop total (k + a.length) (undoLoop total k dir a).1 b).1,
          (undoLoop total k dir a).2 ++
            (undoLoop total (k + a.length) (undoLoop total k dir a).1 b).2) := by
  induction a with
  | nil => intro k dir; simp [undoLoop]
  | cons p rest ih =>
    intro k dir
    obtain ⟨dst, src⟩ := p
    by_cases h : dst ∈ dir <;>
      simp [undoLoop, h, ih, Nat.add_comm, Nat.add_assoc, Nat.add_left_comm]

/-- With every history-file write succeeding, the recorded history is the
incoming history plus one pair per `moved` outcome, in order.  (A failed
write would append to the history while reporting the error outcome, which
is why the hypothesis is needed.) -/
theorem execLoop_hist (cfg : ExecCfg) (hp : ∀ j, cfg.persistOk j = true)
    (total : ℕ) (plan : List (String × String)) :
    ∀ (i : ℕ) (s : EngineState),
      (execLoop cfg total i s plan).1.hist =
        s.hist ++ movedPairs (execLoop cfg total i s plan).2 := by
  induction plan with
  | nil => intro i s; simp [execLoop, movedPairs]
  | cons p rest ih =>
    intro i s
    obtain ⟨o, n⟩ := p
    by_cases ho : o ∈ s.dir
    · by_cases hm : cfg.moveOk i
      · simp [execLoop, execStep, ho, hm, hp i, movedPairs, ih]
      · simp [execLoop, execStep, ho, hm, movedPairs, ih]
    · simp [execLoop, execStep, ho, movedPairs, ih]

/-- Write-through invariant: when every history-file write succeeds, the
persisted file tracks the in-memory history exactly (absent while the
history is empty, since the loop starts right after the
`os.remove(history_file_path)` reset). -/
theorem execLoop_persisted_tracks (cfg : ExecCfg)
    (hp : ∀ j, cfg.persistOk j = true) (total : ℕ) (plan : List (String × String)) :
    ∀ (i : ℕ) (s : EngineState),
      s.persisted = (if s.hist = [] then none else some s.hist) →
      (execLoop cfg total i s plan).1.persisted =
        (if (execLoop cfg total i s plan).1.hist = [] then none
          else some (execLoop cfg total i s plan).1.hist) := by
  induction plan with
  | nil => intro i s h; simpa [execLoop] using h
  | cons p rest ih =>
    intro i s h
    obtain ⟨o, n⟩ := p
    by_cases ho : o ∈ s.dir
    · by_cases hm : cfg.moveOk i
      · have hpi := hp i
        simp [execLoop, execStep, ho, hm, hpi]
        exact ih (i + 1) _ (by simp)
      · simp [execLoop, execStep, ho, hm]
        exact ih (i + 1) _ h
    · simp [execLoop, execStep, ho]
      exact ih (i + 1) _ h

/-- If the history file is absent whenever the in-memory history is empty
on entry, the same holds on exit: the loop never recreates the file
without also recording a successful move. -/
theorem execLoop_persisted_none (cfg : ExecCfg) (total : ℕ)
    (plan : List (String × String)) :
    ∀ (i : ℕ) (s : EngineState),
      (s.persisted = none ∨ s.hist ≠ []) →
      ((execLoop cfg total i s plan).1.persisted = none ∨
        (execLoop cfg total i s plan).1.hist ≠ []) := by
  induction plan with
  | nil => intro i s h; simpa [execLoop] using h
  | cons p rest ih =>
    intro i s h
    obtain ⟨o, n⟩ := p
    by_cases ho : o ∈ s.dir
    · by_cases hm : cfg.moveOk i
      · by_cases hpi : cfg.persistOk i
        · simp [execLoop, execStep, ho, hm, hpi]
          exact ih (i + 1) _ (Or.inr (by simp))
        · simp [execLoop, execStep, ho, hm, hpi]
          exact ih (i + 1) _ (Or.inr (by simp))
      · simp [execLoop, execStep, ho, hm]
        exact ih (i + 1) _ h
    · simp [execLoop, execStep, ho]
      exact ih (i + 1) _ h

/-- Every processed item reports `progressPct` of its 1-based position,
regardless of its outcome. -/
theorem execLoop_pct (cfg : ExecCfg) (total : ℕ) (plan : List (String × String)) :
    ∀ (i : ℕ) (s : EngineState) (j : ℕ), j < plan.length →
      ((execLoop cfg total i s plan).2.get? j).map Prod.snd =
        some (progressPct (i + j + 1) total) := by
  induction plan with
  | nil => intro i s j hj; simp at hj
  | cons p rest ih =>
    intro i s j hj
    obtain ⟨o, n⟩ := p
    cases j with
    | zero => simp [execLoop]
    | succ j' =>
      have hj' : j' < rest.length := by simpa using hj
      have := ih (i + 1) (execStep cfg i s o n).1 j' hj'
      simp only [execLoop, List.get?_cons_succ]
      rw [this]
      congr 2
      omega

theorem undoLoop_pct (total : ℕ) (hist : List (String × String)) :
    ∀ (k : ℕ) (dir : Finset String) (j : ℕ), j < hist.length →
      ((undoLoop total k dir hist).2.get? j).map Prod.snd =
        some (progressPct (k + j + 1) total) := by
  induction hist with
  | nil => intro k dir j hj; simp at hj
  | cons p rest ih =>
    intro k dir j hj
    obtain ⟨dst, src⟩ := p
    cases j with
    | zero => by_cases h : dst ∈ dir <;> simp [undoLoop, h]
    | succ j' =>
      have hj' : j' < rest.length := by simpa using hj
      by_cases h : dst ∈ dir
      · have := ih (k + 1) (moveFile dir dst src) j' hj'
        simp only [undoLoop, h, if_true, List.get?_cons_succ]
        rw [this]
        congr 2
        omega
      · have := ih (k + 1) dir j' hj'
        simp only [undoLoop, h, if_false, List.get?_cons_succ]
        rw [this]
        congr 2
        omega

/-! ## Undo as the inverse of execution -/

/-- Recognizer for the success outcome. -/
def isMoved : Outcome → Bool
  | .moved _ _ => true
  | _ => false

/-- Moving `o → n` and then `n → o` restores the directory, provided the
source existed and the destination name was fresh (otherwise the first move
silently overwrites an existing entry, which the reverse move cannot
resurrect). -/
theorem moveFile_invert (dir : Finset String) (o n : String)
    (ho : o ∈ dir) (hn : n ∉ dir) : moveFile (moveFile dir o n) n o = dir := by
  unfold moveFile
  rw [Finset.erase_insert (fun hmem => hn (Finset.mem_of_mem_erase hmem))]
  exact Finset.insert_erase ho

/-- The per-step conditions under which a batch is cleanly reversible: each
item's source exists and its destination name is absent at the moment of
its move. -/
def goodPlan : Finset String → List (String × String) → Prop
  | _, [] => True
  | dir, (o, n) :: rest => o ∈ dir ∧ n ∉ dir ∧ goodPlan (moveFile dir o n) rest

def goodPlanDec : (dir : Finset String) → (plan : List (String × String)) →
    Decidable (goodPlan dir plan)
  | _, [] => isTrue trivial
  | dir, (o, n) :: rest =>
    haveI : Decidable (goodPlan (moveFile dir o n) rest) := goodPlanDec _ rest
    inferInstanceAs (Decidable (o ∈ dir ∧ n ∉ dir ∧ goodPlan (moveFile dir o n) rest))

instance (dir : Finset String) (plan : List (String × String)) :
    Decidable (goodPlan dir plan) := goodPlanDec dir plan

/-- If every item of the batch reported success, and the planned new names
are pairwise distinct and absent from the starting directory (an empty
conflict set), then the per-step reversibility conditions hold along the
whole batch. -/
theorem goodPlan_of_moved (cfg : ExecCfg) (hm : ∀ j, cfg.moveOk j = true)
    (hp : ∀ j, cfg.persistOk j = true) (total : ℕ) :
    ∀ (plan : List (String × String)) (i : ℕ) (s : EngineState),
      (∀ x ∈ (execLoop cfg total i s plan).2, isMoved x.1 = true) →
      (plan.map Prod.snd).Nodup →
      (∀ p ∈ plan, p.2 ∉ s.dir) →
      goodPlan s.dir plan := by
  intro plan
  induction plan with
  | nil => intro i s _ _ _; trivial
  | cons p rest ih =>
    intro i s hmoved hnd hdisj
    obtain ⟨o, n⟩ := p
    have ho : o ∈ s.dir := by
      by_contra ho
      have hx := hmoved ((execStep cfg i s o n).2, progressPct (i + 1) total)
        (by simp [execLoop])
      simp [execStep, ho, isMoved] at hx
    have hn : n ∉ s.dir := hdisj (o, n) (List.mem_cons_self _ _)
    refine ⟨ho, hn, ?_⟩
    have hstep : execStep cfg i s o n =
        (⟨moveFile s.dir o n, s.hist ++ [(n, o)], some (s.hist ++ [(n, o)])⟩,
          .moved o n) := by
      simp [execStep, ho, hm i, hp i]
    refine ih (i + 1) ⟨moveFile s.dir o n, s.hist ++ [(n, o)], some (s.hist ++ [(n, o)])⟩
      ?_ (by simpa using hnd.of_cons) ?_
    · intro x hx
      refine hmoved x ?_
      simp only [execLoop, hstep]
      exact List.mem_cons_of_mem _ hx
    · intro q hq
      have hnotin : n ∉ rest.map Prod.snd := (List.nodup_cons.mp (by simpa using hnd)).1
      have hqn : q.2 ≠ n := fun he => hnotin (he ▸ List.mem_map_of_mem Prod.snd hq)
      have hqd : q.2 ∉ s.dir := hdisj q (List.mem_cons_of_mem _ hq)
      intro hmem
      simp only [moveFile] at hmem
      rcases Finset.mem_insert.mp hmem with he | he
      · exact hqn he
      · exact hqd (Finset.mem_of_mem_erase he)

/-- Undoing the recorded pairs of a cleanly reversible batch in reverse
(LIFO) order restores the starting directory, with every reverse move
succeeding. -/
theorem execLoop_undo_inverse (cfg : ExecCfg) (hm : ∀ j, cfg.moveOk j = true)
    (hp : ∀ j, cfg.persistOk j = true) (total : ℕ) :
    ∀ (plan : List (String × String)) (i : ℕ) (s : EngineState),
      goodPlan s.dir plan →
      ∀ (tot' k : ℕ),
        (undoLoop tot' k (execLoop cfg total i s plan).1.dir
            (movedPairs (execLoop cfg total i s plan).2).reverse).1 = s.dir ∧
        ∀ x ∈ (undoLoop tot' k (execLoop cfg total i s plan).1.dir
            (movedPairs (execLoop cfg total i s plan).2).reverse).2,
          isMoved x.1 = true := by
  intro plan
  induction plan with
  | nil =>
    intro i s _ tot' k
    simp [execLoop, movedPairs, undoLoop]
  | cons p rest ih =>
    intro i s hgood tot' k
    obtain ⟨o, n⟩ := p
    obtain ⟨ho, hn, hrest⟩ := hgood
    have hstep : execStep cfg i s o n =
        (⟨moveFile s.dir o n, s.hist ++ [(n, o)], some (s.hist ++ [(n, o)])⟩,
          .moved o n) := by
      simp [execStep, ho, hm i, hp i]
    set s' : EngineState :=
      ⟨moveFile s.dir o n, s.hist ++ [(n, o)], some (s.hist ++ [(n, o)])⟩ with hs'
    have hloop : execLoop cfg total i s ((o, n) :: rest) =
        ((execLoop cfg total (i + 1) s' rest).1,
          (.moved o n, progressPct (i + 1) total) ::
            (execLoop cfg total (i + 1) s' rest).2) := by
      simp [execLoop, hstep]
    have hmp : movedPairs ((execLoop cfg total i s ((o, n) :: rest)).2) =
        (n, o) :: movedPairs (execLoop cfg total (i + 1) s' rest).2 := by
      rw [hloop]; simp [movedPairs]
    have hdir : (execLoop cfg total i s ((o, n) :: rest)).1.dir =
        (execLoop cfg total (i + 1) s' rest).1.dir := by rw [hloop]
    have hih := ih (i + 1) s' (by simpa [hs'] using hrest)
    rw [hdir, hmp, List.reverse_cons, undoLoop_append]
    obtain ⟨hihdir, hihmv⟩ := hih tot' k
    constructor
    · rw [hihdir]
      have hmem : n ∈ moveFile s.dir o n := by simp [moveFile]
      simp only [hs', undoLoop, hmem, if_true]
      exact moveFile_invert s.dir o n ho hn
    · intro x hx
      rw [List.mem_append] at hx
      rcases hx with hx | hx
      · exact hihmv x hx
      · rw [hihdir] at hx
        have hmem : n ∈ moveFile s.dir o n := by simp [moveFile]
        simp only [hs', undoLoop, hmem, if_true, List.mem_cons] at hx
        rcases hx with hx | hx
        · rw [hx]; rfl
        · simp [undoLoop] at hx

/-! ## Characterizing the conflict set -/

/-- Two distinct positions holding the same value witness a duplicate. -/
theorem duplicate_of_get?_eq {α : Type} (l : List α) :
    ∀ (i j : ℕ), i < j → ∀ x : α, l.get? i = some x → l.get? j = some x →
      l.Duplicate x := by
  induction l with
  | nil => intro i j _ x h1 _; simp at h1
  | cons c rest ih =>
    intro i j hij x h1 h2
    cases i with
    | zero =>
      cases j with
      | zero => omega
      | succ j' =>
        simp only [List.get?_cons_zero, Option.some_inj] at h1
        subst h1
        exact List.Mem.duplicate_cons_self (List.get?_mem h2)
    | succ i' =>
      cases j with
      | zero => omega
      | succ j' =>
        exact (ih i' j' (by omega) x h1 h2).duplicate_cons _

/-- A duplicate yields two distinct positions holding the value. -/
theorem get?_eq_of_duplicate {α : Type} {l : List α} {x : α} (h : l.Duplicate x) :
    ∃ i j, i < j ∧ l.get? i = some x ∧ l.get? j = some x := by
  induction h with
  | cons_mem hmem =>
    obtain ⟨k, hk⟩ := List.get?_of_mem hmem
    exact ⟨0, k + 1, by omega, rfl, by rw [List.get?_cons_succ]; exact hk⟩
  | cons_duplicate _ ih =>
    obtain ⟨i, j, hij, h1, h2⟩ := ih
    exact ⟨i + 1, j + 1, by omega, by rw [List.get?_cons_succ]; exact h1,
      by rw [List.get?_cons_succ]; exact h2⟩

/-- The conflict set is empty exactly when the planned new names are
pairwise distinct and none of them already exists in the folder. -/
theorem conflictIndices_eq_empty_iff (dir : Finset String) (news : List String) :
    conflictIndices dir news = ∅ ↔ news.Nodup ∧ ∀ n ∈ news, n ∉ dir := by
  rw [conflictIndices, List.toFinset_eq_empty_iff, conflictList,
    List.filter_eq_nil_iff]
  constructor
  · intro h
    have hnone : ∀ i < news.length, ¬conflictsAt dir news i := by
      intro i hi hc
      exact absurd (decide_eq_true hc) (by simpa using h i (List.mem_range.mpr hi))
    constructor
    · rw [List.nodup_iff_count_le_one]
      intro a
      by_cases hmem : a ∈ news
      · obtain ⟨i, hi⟩ := List.get?_of_mem hmem
        have hilt : i < news.length := List.get?_eq_some.mp hi |>.1
        have hgd : news.getD i "" = a := by
          rw [List.getD_eq_get?, hi]; rfl
        have := hnone i hilt
        rw [conflictsAt, hgd] at this
        omega
      · simp [List.count_eq_zero_of_not_mem hmem]
    · intro n hmem
      obtain ⟨i, hi⟩ := List.get?_of_mem hmem
      have hilt : i < news.length := List.get?_eq_some.mp hi |>.1
      have hgd : news.getD i "" = n := by
        rw [List.getD_eq_get?, hi]; rfl
      have := hnone i hilt
      rw [conflictsAt, hgd] at this
      tauto
  · rintro ⟨hnd, hdisj⟩ i hi
    have hilt : i < news.length := List.mem_range.mp hi
    have hmem : news.getD i "" ∈ news := by
      rw [List.getD_eq_getElem news "" hilt]
      exact List.getElem_mem hilt
    simp only [decide_eq_true_eq]
    rw [conflictsAt]
    push_neg
    refine ⟨hdisj _ hmem, ?_⟩
    exact List.nodup_iff_count_le_one.mp hnd _

/-! ## Claim C1 -/

/-- **C1, counterexample.**  The claim as stated is false: with directory
`{a, b}` and the one-item plan `a → b`, every item's move succeeds
(the existing `b` is silently overwritten), the undo safety check passes,
and the operator confirms — yet undo yields `{a}`, not the pre-rename set
`{a, b}`.  The claim needs the plan's conflict set to be empty. -/
theorem c1_counterexample :
    (∀ x ∈ (execRename cfgOK {"a", "b"} none [("a", "b")]).outs, isMoved x.1 = true) ∧
    (∀ p ∈ (execRename cfgOK {"a", "b"} none [("a", "b")]).hist,
      p.1 ∈ (execRename cfgOK {"a", "b"} none [("a", "b")]).dir) ∧
    (undoOp (execRename cfgOK {"a", "b"} none [("a", "b")]).dir
        (execRename cfgOK {"a", "b"} none [("a", "b")]).hist
        (execRename cfgOK {"a", "b"} none [("a", "b")]).persisted true).dir ≠
      ({"a", "b"} : Finset String) := by
  decide

/-- **C1, amended.**  For every plan whose conflict set against the
pre-rename directory is empty, whose execution succeeds on every item
(every original exists at its move and every move and history write
succeeds), and whose recorded history passes the undo safety check, undo
with a yes confirmation iterates the history in reverse order, every
reverse move succeeds (one per recorded pair), and the resulting directory
name set equals the pre-rename set. -/
theorem c1_undo_restores (dir0 : Finset String)
    (persisted0 : Option (List (String × String))) (plan : List (String × String))
    (hconf : conflictIndices dir0 (plan.map Prod.snd) = ∅)
    (hmoved : ∀ x ∈ (execRename cfgOK dir0 persisted0 plan).outs, isMoved x.1 = true)
    (hsafe : ∀ p ∈ (execRename cfgOK dir0 persisted0 plan).hist,
      p.1 ∈ (execRename cfgOK dir0 persisted0 plan).dir) :
    (undoOp (execRename cfgOK dir0 persisted0 plan).dir
        (execRename cfgOK dir0 persisted0 plan).hist
        (execRename cfgOK dir0 persisted0 plan).persisted true).dir = dir0 ∧
    (∀ x ∈ (undoOp (execRename cfgOK dir0 persisted0 plan).dir
        (execRename cfgOK dir0 persisted0 plan).hist
        (execRename cfgOK dir0 persisted0 plan).persisted true).outs,
      isMoved x.1 = true) ∧
    (undoOp (execRename cfgOK dir0 persisted0 plan).dir
        (execRename cfgOK dir0 persisted0 plan).hist
        (execRename cfgOK dir0 persisted0 plan).persisted true).outs.length =
      (execRename cfgOK dir0 persisted0 plan).hist.length := by
  obtain ⟨hnd, hdisj⟩ := (conflictIndices_eq_empty_iff dir0 (plan.map Prod.snd)).mp hconf
  by_cases hpl : plan = []
  · subst hpl
    simp [execRename, undoOp]
  · have hne : plan.isEmpty = false := by simpa [List.isEmpty_iff] using hpl
    have hER : execRename cfgOK dir0 persisted0 plan =
        ⟨(execLoop cfgOK plan.length 0 ⟨dir0, [], none⟩ plan).1.dir,
          (execLoop cfgOK plan.length 0 ⟨dir0, [], none⟩ plan).1.hist,
          (execLoop cfgOK plan.length 0 ⟨dir0, [], none⟩ plan).1.persisted,
          (execLoop cfgOK plan.length 0 ⟨dir0, [], none⟩ plan).2⟩ := by
      simp [execRename, hne]
    set E := execLoop cfgOK plan.length 0 ⟨dir0, [], none⟩ plan with hEdef
    rw [hER] at hmoved hsafe ⊢
    have hmOK : ∀ j, cfgOK.moveOk j = true := fun _ => rfl
    have hpOK : ∀ j, cfgOK.persistOk j = true := fun _ => rfl
    have hdisj' : ∀ p ∈ plan, p.2 ∉ (⟨dir0, [], none⟩ : EngineState).dir :=
      fun p hp => hdisj p.2 (List.mem_map_of_mem Prod.snd hp)
    have hgood : goodPlan dir0 plan :=
      goodPlan_of_moved cfgOK hmOK hpOK plan.length plan 0 ⟨dir0, [], none⟩
        hmoved hnd hdisj'
    have hhist : E.1.hist = movedPairs E.2 := by
      have h := execLoop_hist cfgOK hpOK plan.length plan 0 ⟨dir0, [], none⟩
      simpa [← hEdef] using h
    have houts_len : E.2.length = plan.length :=
      execLoop_length cfgOK plan.length plan 0 ⟨dir0, [], none⟩
    have houts_ne : E.2 ≠ [] := by
      intro h
      rw [h] at houts_len
      exact hpl (List.length_eq_zero.mp houts_len.symm)
    obtain ⟨x, xs, hxs⟩ := List.exists_cons_of_ne_nil houts_ne
    have hx1 : isMoved x.1 = true := hmoved x (by rw [hxs]; exact List.mem_cons_self _ _)
    have hhist_ne : E.1.hist ≠ [] := by
      rw [hhist, hxs]
      cases hx : x.1 with
      | moved o n => simp [movedPairs, hx]
      | notFound o => rw [hx] at hx1; simp [isMoved] at hx1
      | moveFailed o => rw [hx] at hx1; simp [isMoved] at hx1
    have hie : ¬(E.1.hist.isEmpty = true) := by
      simpa [List.isEmpty_iff] using hhist_ne
    have hundo : undoOp E.1.dir E.1.hist E.1.persisted true =
        ⟨.done, (undoLoop E.1.hist.length 0 E.1.dir E.1.hist.reverse).1, [], none,
          (undoLoop E.1.hist.length 0 E.1.dir E.1.hist.reverse).2⟩ := by
      rw [undoOp, if_neg hie, dif_pos hsafe, if_pos rfl]
    rw [hundo, hhist]
    have hinv := execLoop_undo_inverse cfgOK hmOK hpOK plan.length plan 0
      ⟨dir0, [], none⟩ hgood
    refine ⟨?_, ?_, ?_⟩
    · have h := (hinv (movedPairs E.2).length 0).1
      rw [← hEdef] at h
      simpa using h
    · intro x hx
      have h := (hinv (movedPairs E.2).length 0).2
      rw [← hEdef] at h
      exact h x hx
    · rw [undoLoop_length, List.length_reverse]

/-- **C1, witness** for the amended theorem: directory `{a, b}`, plan
`a → x`, `b → y`; the conflict set is empty, execution succeeds on both
items, the safety check passes, and undo restores `{a, b}`. -/
theorem c1_witness :
    conflictIndices {"a", "b"}
        (([("a", "x"), ("b", "y")] : List (String × String)).map Prod.snd) = ∅ ∧
    (undoOp (execRename cfgOK {"a", "b"} none [("a", "x"), ("b", "y")]).dir
        (execRename cfgOK {"a", "b"} none [("a", "x"), ("b", "y")]).hist
        (execRename cfgOK {"a", "b"} none [("a", "x"), ("b", "y")]).persisted
        true).dir = ({"a", "b"} : Finset String) :=
  ⟨by decide,
    (c1_undo_restores {"a", "b"} none [("a", "x"), ("b", "y")] (by decide)
      (by decide) (by decide)).1⟩

/-! ## Claim C2 -/

/-- **C2.**  With a non-empty stored history in which some recorded
`currentPath` no longer exists, `undo` refuses before any confirmation
(the result is the same for both confirmation answers): no file is moved,
no outcome is emitted, and the in-memory history, the persisted history
file and the directory are all left unchanged. -/
theorem c2_safety_refusal (dir : Finset String) (memHist : List (String × String))
    (persisted : Option (List (String × String))) (confirm : Bool)
    (hne : memHist ≠ [])
    (hmiss : ∃ p ∈ memHist, p.1 ∉ dir) :
    undoOp dir memHist persisted confirm =
      ⟨.refusedSafety, dir, memHist, persisted, []⟩ := by
  have hie : ¬(memHist.isEmpty = true) := by simpa [List.isEmpty_iff] using hne
  have hnall : ¬∀ p ∈ memHist, p.1 ∈ dir := by
    obtain ⟨p, hp, hout⟩ := hmiss
    exact fun h => hout (h p hp)
  rw [undoOp, if_neg hie, dif_neg hnall]

/-- **C2, witness**: history `[(x, a)]` while the directory is `{b}` —
the recorded `x` is missing, so undo refuses and changes nothing. -/
theorem c2_witness :
    ([("x", "a")] : List (String × String)) ≠ [] ∧
    (∃ p ∈ ([("x", "a")] : List (String × String)), p.1 ∉ ({"b"} : Finset String)) ∧
    undoOp {"b"} [("x", "a")] (some [("x", "a")]) true =
      ⟨.refusedSafety, {"b"}, [("x", "a")], some [("x", "a")], []⟩ :=
  ⟨by decide, by decide,
    c2_safety_refusal {"b"} [("x", "a")] (some [("x", "a")]) true (by decide) (by decide)⟩

/-! ## Claim C3 -/

/-- **C3, counterexample.**  The final "at function return the persisted
file matches the in-memory history exactly" part fails for the empty plan:
`_execute_rename` returns before the history-file reset, so a file
persisted by the prior batch survives while the in-memory history is
empty. -/
theorem c3_counterexample :
    (execRename cfgOK {"a"} (some [("x", "w")]) []).hist = [] ∧
    (execRename cfgOK {"a"} (some [("x", "w")]) []).persisted = some [("x", "w")] := by
  decide

/-- **C3, amended.**  For every non-empty plan, provided every history-file
write succeeds: after the first `t` items (any `t`) the in-memory history
is exactly the `(newPath, originalPath)` pairs of the successful moves so
far, in execution order, and the persisted file holds exactly that history
(absent while it is still empty, the loop having started right after the
reset); and at function return the persisted file matches the returned
history the same way. -/
theorem c3_write_through (cfg : ExecCfg) (hp : ∀ j, cfg.persistOk j = true)
    (dir0 : Finset String) (persisted0 : Option (List (String × String)))
    (plan : List (String × String)) (hpl : plan ≠ []) (t : ℕ) :
    ((execLoop cfg plan.length 0 ⟨dir0, [], none⟩ (plan.take t)).1.hist =
        movedPairs (execLoop cfg plan.length 0 ⟨dir0, [], none⟩ (plan.take t)).2) ∧
    ((execLoop cfg plan.length 0 ⟨dir0, [], none⟩ (plan.take t)).1.persisted =
        (if (execLoop cfg plan.length 0 ⟨dir0, [], none⟩ (plan.take t)).1.hist = []
          then none
          else some (execLoop cfg plan.length 0 ⟨dir0, [], none⟩ (plan.take t)).1.hist)) ∧
    ((execRename cfg dir0 persisted0 plan).persisted =
        (if (execRename cfg dir0 persisted0 plan).hist = [] then none
          else some (execRename cfg dir0 persisted0 plan).hist)) := by
  have hne : plan.isEmpty = false := by simpa [List.isEmpty_iff] using hpl
  refine ⟨?_, ?_, ?_⟩
  · simpa using execLoop_hist cfg hp plan.length (plan.take t) 0 ⟨dir0, [], none⟩
  · exact execLoop_persisted_tracks cfg hp plan.length (plan.take t) 0 ⟨dir0, [], none⟩
      (by simp)
  · simp only [execRename, hne, Bool.false_eq_true, if_false]
    exact execLoop_persisted_tracks cfg hp plan.length plan 0 ⟨dir0, [], none⟩ (by simp)

/-- **C3, witness**: one-item plan `a → x` over `{a}`; at return the
persisted file holds exactly the one-pair history. -/
theorem c3_witness :
    (execRename cfgOK {"a"} none [("a", "x")]).persisted =
      (if (execRename cfgOK {"a"} none [("a", "x")]).hist = [] then none
        else some (execRename cfgOK {"a"} none [("a", "x")]).hist) :=
  (c3_write_through cfgOK (fun _ => rfl) {"a"} none [("a", "x")] (by decide) 1).2.2

/-! ## Claim C6 -/

/-- **C6, counterexample.**  An empty plan reaches execution end-to-end
(empty name lists validate and have no conflicts), yet the persisted
history of the prior batch survives: `_execute_rename` returns on
`total_files == 0` before the `os.remove(history_file_path)` reset. -/
theorem c6_counterexample :
    (renameOp 10 cfgOK ⟨{"a"}, [("z", "w")], some [("x", "w")]⟩
        ⟨true, false, [], [], true, true, true, true, true⟩ .autoResolve).1.persisted =
      some [("x", "w")] := by
  decide

/-- **C6, amended.**  For every non-empty plan the executor deletes the
prior persisted history before attempting any move: its entire result is
independent of the prior file's content, and if no move succeeds the
history file ends absent.  For the empty plan the executor returns before
the reset and the prior persisted file survives untouched. -/
theorem c6_reset_before_moves (cfg : ExecCfg) (dir0 : Finset String)
    (p0 p0' : Option (List (String × String))) (plan : List (String × String))
    (hpl : plan ≠ []) :
    execRename cfg dir0 p0 plan = execRename cfg dir0 p0' plan ∧
    ((execRename cfg dir0 p0 plan).hist = [] →
      (execRename cfg dir0 p0 plan).persisted = none) ∧
    execRename cfg dir0 p0 [] = ⟨dir0, [], p0, []⟩ := by
  have hne : plan.isEmpty = false := by simpa [List.isEmpty_iff] using hpl
  refine ⟨by simp [execRename, hne], ?_, by simp [execRename]⟩
  intro hh
  have h := execLoop_persisted_none cfg plan.length plan 0 ⟨dir0, [], none⟩
    (Or.inl rfl)
  simp only [execRename, hne, Bool.false_eq_true, if_false] at hh ⊢
  rcases h with h | h
  · exact h
  · exact absurd hh h

/-- **C6, witness**: a one-item plan whose original is missing — the prior
persisted file's content is irrelevant to the result and, with no
successful move, the history file ends absent. -/
theorem c6_witness :
    ([("a", "x")] : List (String × String)) ≠ [] ∧
    execRename cfgOK ∅ (some [("x", "w")]) [("a", "x")] =
      execRename cfgOK ∅ none [("a", "x")] ∧
    (execRename cfgOK ∅ (some [("x", "w")]) [("a", "x")]).persisted = none :=
  ⟨by decide,
    (c6_reset_before_moves cfgOK ∅ (some [("x", "w")]) none [("a", "x")] (by decide)).1,
    (c6_reset_before_moves cfgOK ∅ (some [("x", "w")]) none [("a", "x")]
      (by decide)).2.1 (by decide)⟩

/-! ## Claim C7 -/

/-- Every move succeeds but the history-file write of item 0 fails. -/
def cfgPersistFail0 : ExecCfg := ⟨fun _ => true, fun i => decide (i ≠ 0)⟩

/-- The move of item 0 itself fails; every history-file write succeeds. -/
def cfgMoveFail0 : ExecCfg := ⟨fun i => decide (i ≠ 0), fun _ => true⟩

/-- **C7, counterexample.**  A history-write failure after a successful
move is *not* surfaced distinctly from the per-item move outcomes: the
write sits in the same `try` as the move, so its exception takes the same
`except` branch and yields the very same error outcome for that item as a
genuine move failure would (`moveFailed "a"` in both runs below).  The
parts of the claim about not rolling back (`x` is on disk and in the
history) and not aborting the batch (item 1 still runs) do hold. -/
theorem c7_counterexample :
    (execRename cfgPersistFail0 {"a", "b"} none [("a", "x"), ("b", "y")]).outs =
      [(.moveFailed "a", 50), (.moved "b" "y", 100)] ∧
    ((execRename cfgMoveFail0 {"a", "b"} none [("a", "x"), ("b", "y")]).outs.get? 0 =
      some (.moveFailed "a", 50)) ∧
    "x" ∈ (execRename cfgPersistFail0 {"a", "b"} none [("a", "x"), ("b", "y")]).dir ∧
    ("x", "a") ∈ (execRename cfgPersistFail0 {"a", "b"} none [("a", "x"), ("b", "y")]).hist := by
  decide

/-- **C7, amended.**  When the history-file write fails after a successful
move, that item's surfaced outcome is the same `moveFailed` error line a
move failure produces (not a distinct persistence error); the completed
move is not rolled back — the directory reflects it and the pair stays in
the in-memory history (the persisted file keeps its previous content) —
and the remaining items are still processed (one outcome per item, the
batch never aborts). -/
theorem c7_persist_failure (cfg : ExecCfg) (i : ℕ) (s : EngineState) (o n : String)
    (ho : o ∈ s.dir) (hm : cfg.moveOk i = true) (hp : cfg.persistOk i = false) :
    execStep cfg i s o n =
      (⟨moveFile s.dir o n, s.hist ++ [(n, o)], s.persisted⟩, .moveFailed o) ∧
    ∀ (total : ℕ) (rest : List (String × String)),
      (execLoop cfg total i s ((o, n) :: rest)).2.length = rest.length + 1 := by
  constructor
  · simp [execStep, ho, hm, hp]
  · intro total rest
    simp [execLoop, execLoop_length]

/-- **C7, witness** for the amended theorem at a concrete input. -/
theorem c7_witness :
    "a" ∈ ({"a", "b"} : Finset String) ∧
    execStep cfgPersistFail0 0 ⟨{"a", "b"}, [], none⟩ "a" "x" =
      (⟨moveFile {"a", "b"} "a" "x", [("x", "a")], none⟩, .moveFailed "a") ∧
    (execLoop cfgPersistFail0 2 0 ⟨{"a", "b"}, [], none⟩
      [("a", "x"), ("b", "y")]).2.length = 2 :=
  ⟨by decide,
    (c7_persist_failure cfgPersistFail0 0 ⟨{"a", "b"}, [], none⟩ "a" "x"
      (by decide) (by decide) (by decide)).1,
    (c7_persist_failure cfgPersistFail0 0 ⟨{"a", "b"}, [], none⟩ "a" "x"
      (by decide) (by decide) (by decide)).2 2 [("b", "y")]⟩

/-! ## Claim C9 -/

/-- Modelled from the spec: the progress percentage as the claim words it,
`round(processedCount / totalCount * 100)` — rounding to the nearest
integer, for comparison with the source's truncation. -/
def progressPctClaimed (processed total : ℕ) : ℤ :=
  round ((processed * 100 : ℚ) / total)

/-- **C9, counterexample.**  The source computes
`int((processed / total) * 100)`, which truncates: for a three-item plan
the second item reports `66`, while rounding `2/3 · 100` to the nearest
integer gives `67`. -/
theorem c9_counterexample :
    ((execRename cfgOK {"a", "b", "c"} none
        [("a", "x"), ("b", "y"), ("c", "z")]).outs.map Prod.snd = [33, 66, 100]) ∧
    progressPctClaimed 2 3 = 67 := by
  constructor
  · decide
  · show round ((((2 : ℕ) : ℚ) * 100) / ((3 : ℕ) : ℚ)) = (67 : ℤ)
    norm_num [round_eq]

/-- **C9, amended.**  During both execute and undo, after every processed
item — whatever its outcome — progress is reported as the *truncation*
`int(processedCount / totalCount * 100)`, i.e. `⌊i·100/N⌋` for the item at
1-based position `i` of `N`. -/
theorem c9_progress (cfg : ExecCfg) (dir0 : Finset String)
    (p0 : Option (List (String × String))) (plan : List (String × String))
    (j : ℕ) (hj : j < plan.length)
    (dir : Finset String) (memHist : List (String × String))
    (persisted : Option (List (String × String))) (k : ℕ) (hk : k < memHist.length)
    (hsafe : ∀ p ∈ memHist, p.1 ∈ dir) :
    (((execRename cfg dir0 p0 plan).outs.get? j).map Prod.snd =
      some (progressPct (j + 1) plan.length)) ∧
    (((undoOp dir memHist persisted true).outs.get? k).map Prod.snd =
      some (progressPct (k + 1) memHist.length)) := by
  constructor
  · have hpl : plan ≠ [] := by
      intro h; rw [h] at hj; simp at hj
    have hne : plan.isEmpty = false := by simpa [List.isEmpty_iff] using hpl
    simp only [execRename, hne, Bool.false_eq_true, if_false]
    simpa using execLoop_pct cfg plan.length plan 0 ⟨dir0, [], none⟩ j hj
  · have hmne : memHist ≠ [] := by
      intro h; rw [h] at hk; simp at hk
    have hie : ¬(memHist.isEmpty = true) := by simpa [List.isEmpty_iff] using hmne
    rw [undoOp, if_neg hie, dif_pos hsafe, if_pos rfl]
    simpa using undoLoop_pct memHist.length memHist.reverse 0 dir k
      (by simpa using hk)

/-- **C9, witness** for the amended theorem: a two-item execute batch
(reports 50 then 100) and a one-pair undo (reports 100). -/
theorem c9_witness :
    (((execRename cfgOK {"a", "b"} none [("a", "x"), ("b", "y")]).outs.get? 0).map
        Prod.snd = some (progressPct 1 2)) ∧
    (((undoOp {"x"} [("x", "a")] none true).outs.get? 0).map Prod.snd =
      some (progressPct 1 1)) :=
  ⟨(c9_progress cfgOK {"a", "b"} none [("a", "x"), ("b", "y")] 0 (by decide)
      {"x"} [("x", "a")] none 0 (by decide) (by decide)).1,
    (c9_progress cfgOK {"a", "b"} none [("a", "x"), ("b", "y")] 0 (by decide)
      {"x"} [("x", "a")] none 0 (by decide) (by decide)).2⟩

/-! ## Claim C10 -/

/-- **C10.**  `rename` clears the in-memory history before validation, so
an invocation that fails validation (invalid folder, forbidden folder,
length mismatch, or declined character stripping — every `None` from
`_get_and_validate_inputs`) leaves the in-memory history empty, the
directory untouched, and the persisted file of the prior batch on disk
exactly as it was; a subsequent `undo` then returns at the empty-history
check and reverses nothing. -/
theorem c10_failed_validation (fuel : ℕ) (cfg : ExecCfg) (s : Session)
    (v : ValidationInput) (choice : ConflictChoice) (confirm : Bool)
    (hv : validateInputs v = none) :
    (renameOp fuel cfg s v choice).1 = ⟨s.dir, [], s.persisted⟩ ∧
    (renameOp fuel cfg s v choice).2 = [] ∧
    undoOp (renameOp fuel cfg s v choice).1.dir
        (renameOp fuel cfg s v choice).1.memHistory
        (renameOp fuel cfg s v choice).1.persisted confirm =
      ⟨.noHistory, s.dir, [], s.persisted, []⟩ := by
  refine ⟨by simp [renameOp, hv], by simp [renameOp, hv], ?_⟩
  simp [renameOp, hv, undoOp]

/-- **C10, witness**: a length-mismatch invocation (`origs = [a]`,
`news = []`) over a session holding a prior history. -/
theorem c10_witness :
    validateInputs ⟨true, false, ["a"], [], true, true, true, true, true⟩ = none ∧
    (renameOp 5 cfgOK ⟨{"a"}, [("q", "r")], some [("q", "r")]⟩
        ⟨true, false, ["a"], [], true, true, true, true, true⟩ .autoResolve).1 =
      ⟨{"a"}, [], some [("q", "r")]⟩ :=
  ⟨by decide,
    (c10_failed_validation 5 cfgOK ⟨{"a"}, [("q", "r")], some [("q", "r")]⟩
      ⟨true, false, ["a"], [], true, true, true, true, true⟩ .autoResolve true
      (by decide)).1⟩

/-! ## Claims C4 and C5: auto-resolution -/

theorem getD_set_self (l : List String) (i : ℕ) (a : String) (hi : i < l.length) :
    (l.set i a).getD i "" = a := by
  rw [List.getD_eq_getElem _ "" (by simpa using hi)]
  exact List.getElem_set_self _

theorem getD_set_ne (l : List String) (i j : ℕ) (a : String) (hij : i ≠ j)
    (hj : j < l.length) : (l.set i a).getD j "" = l.getD j "" := by
  rw [List.getD_eq_getElem _ "" (by simpa using hj), List.getD_eq_getElem _ "" hj]
  exact List.getElem_set_ne hij _

theorem getD_mem_of_lt (l : List String) (j : ℕ) (hj : j < l.length) :
    l.getD j "" ∈ l := by
  rw [List.getD_eq_getElem _ "" hj]
  exact List.getElem_mem hj

theorem get?_getD (l : List String) (j : ℕ) (hj : j < l.length) :
    l.get? j = some (l.getD j "") := by
  rw [List.getD_eq_getElem _ "" hj]
  exact List.get?_eq_some.mpr ⟨hj, by simp [List.get_eq_getElem]⟩

/-- Whatever candidate the suffix search returns was accepted by its own
guard: it neither exists in the folder nor occurs anywhere in the current
working list. -/
theorem findFree_mem (dir : Finset String) (temp : List String) (b e : String) :
    ∀ (fuel k : ℕ) (cand : String), findFree dir temp b e fuel k = some cand →
      cand ∉ dir ∧ cand ∉ temp := by
  intro fuel
  induction fuel with
  | zero => intro k cand h; simp [findFree] at h
  | succ f ih =>
    intro k cand h
    rw [findFree] at h
    split at h
    · rename_i hcond
      cases h
      exact hcond
    · exact ih (k + 1) cand h

/-- Index `j` of `temp` holds a name that is absent from the folder and
different from the name at every other position. -/
def freshAt (dir : Finset String) (temp : List String) (j : ℕ) : Prop :=
  temp.getD j "" ∉ dir ∧
    ∀ l, l < temp.length → l ≠ j → temp.getD l "" ≠ temp.getD j ""

/-- Soundness of the auto-resolve loop: starting from a working list in
which every index outside the worklist is already fresh, a successful run
returns a list of the same length in which *every* index is fresh —
assigned candidates are checked against the folder and the whole current
working list, and earlier assignments are never overwritten because the
worklist indices are distinct. -/
theorem resolveLoop_sound (fuel : ℕ) (dir : Finset String) (orig : List String) :
    ∀ (todo : List ℕ) (temp news' : List String),
      resolveLoop fuel dir orig todo temp = some news' →
      temp.length = orig.length →
      todo.Nodup →
      (∀ i ∈ todo, i < orig.length) →
      (∀ j, j < temp.length → j ∉ todo → freshAt dir temp j) →
      news'.length = orig.length ∧ ∀ j, j < news'.length → freshAt dir news' j := by
  intro todo
  induction todo with
  | nil =>
    intro temp news' hres hlen _ _ hgood
    rw [resolveLoop] at hres
    cases hres
    exact ⟨hlen, fun j hj => hgood j hj (List.not_mem_nil j)⟩
  | cons i rest ih =>
    intro temp news' hres hlen hnd hlt hgood
    rw [resolveLoop] at hres
    cases hff : findFree dir temp (splitext (orig.getD i "")).1
        (splitext (orig.getD i "")).2 fuel 1 with
    | none => rw [hff] at hres; cases hres
    | some cand =>
      rw [hff] at hres
      obtain ⟨hcd, hct⟩ := findFree_mem dir temp _ _ fuel 1 cand hff
      have hi : i < temp.length := hlen ▸ hlt i (List.mem_cons_self _ _)
      refine ih (temp.set i cand) news' hres (by simpa using hlen)
        hnd.of_cons (fun x hx => hlt x (List.mem_cons_of_mem _ hx)) ?_
      intro j hj hjrest
      have hjlen : j < temp.length := by simpa using hj
      by_cases hji : j = i
      · subst hji
        constructor
        · rw [getD_set_self temp j cand hjlen]
          exact hcd
        · intro l hl hlj
          rw [getD_set_self temp j cand hjlen,
            getD_set_ne temp j l cand (fun he => hlj he.symm) (by simpa using hl)]
          exact fun he => hct (he ▸ getD_mem_of_lt temp l (by simpa using hl))
      · have hjout : j ∉ i :: rest := by
          intro hmem
          rcases List.mem_cons.mp hmem with h | h
          · exact hji h
          · exact hjrest h
        obtain ⟨h1, h2⟩ := hgood j hjlen hjout
        constructor
        · rw [getD_set_ne temp i j cand (fun he => hji he.symm) hjlen]
          exact h1
        · intro l hl hlj
          rw [getD_set_ne temp i j cand (fun he => hji he.symm) hjlen]
          by_cases hli : l = i
          · subst hli
            rw [getD_set_self temp l cand (by simpa using hl)]
            exact fun he => hct (he.symm ▸ getD_mem_of_lt temp j hjlen)
          · rw [getD_set_ne temp i l cand (fun he => hli he.symm) (by simpa using hl)]
            exact h2 l (by simpa using hl) hlj

/-- **C4.**  AUTO_RESOLVE processes the conflicting indices in ascending
order, splits each original `newName` at its last extension separator,
and assigns the first `base_(k)ext` free of both the folder and the
current working plan, mutating the plan before the next conflict:
duplicates `[x.txt, x.txt]` with an empty folder become
`[x_(1).txt, x_(2).txt]` (the second conflict sees the first assignment
and skips to `k = 2`); a single `x.txt` colliding with an existing file
becomes `x_(1).txt`; and with `x_(1).txt` also taken on disk it becomes
`x_(2).txt`. -/
theorem c4_auto_resolve_examples :
    handleNameConflicts 10 ∅ ["x.txt", "x.txt"] .autoResolve =
      some ["x_(1).txt", "x_(2).txt"] ∧
    handleNameConflicts 10 {"x.txt"} ["x.txt"] .autoResolve = some ["x_(1).txt"] ∧
    handleNameConflicts 10 {"x.txt", "x_(1).txt"} ["x.txt"] .autoResolve =
      some ["x_(2).txt"] := by
  decide

/-- **C5.**  Whenever AUTO_RESOLVE returns a plan, re-running conflict
detection on it finds nothing: the returned names are pairwise distinct
(assigned ones differ from each other and from every unchanged entry) and
none of them exists in the destination folder. -/
theorem c5_resolved_conflict_free (fuel : ℕ) (dir : Finset String)
    (news news' : List String)
    (h : handleNameConflicts fuel dir news .autoResolve = some news') :
    conflictIndices dir news' = ∅ ∧ news'.Nodup ∧ ∀ n ∈ news', n ∉ dir := by
  by_cases hc : conflictList dir news = []
  · rw [handleNameConflicts, if_pos hc] at h
    cases h
    have hempty : conflictIndices dir news = ∅ := by
      rw [conflictIndices, hc]; rfl
    obtain ⟨hnd, hdisj⟩ := (conflictIndices_eq_empty_iff dir news).mp hempty
    exact ⟨hempty, hnd, hdisj⟩
  · rw [handleNameConflicts, if_neg hc] at h
    have hnd : (conflictList dir news).Nodup :=
      (List.nodup_range news.length).filter _
    have hlt : ∀ i ∈ conflictList dir news, i < news.length := by
      intro i hi
      exact List.mem_range.mp (List.mem_filter.mp hi).1
    have hgood : ∀ j, j < news.length → j ∉ conflictList dir news →
        freshAt dir news j := by
      intro j hj hout
      have hnc : ¬conflictsAt dir news j := by
        intro hcf
        exact hout (List.mem_filter.mpr
          ⟨List.mem_range.mpr hj, decide_eq_true hcf⟩)
      rw [conflictsAt] at hnc
      push_neg at hnc
      obtain ⟨h1, h2⟩ := hnc
      refine ⟨h1, ?_⟩
      intro l hl hlj he
      have hdup : news.Duplicate (news.getD j "") := by
        rcases Nat.lt_or_ge l j with hlt' | hge
        · exact duplicate_of_get?_eq news l j hlt' _
            (by rw [get?_getD news l hl, he]) (get?_getD news j hj)
        · have hjl : j < l := lt_of_le_of_ne hge (fun hx => hlj hx.symm)
          exact duplicate_of_get?_eq news j l hjl _
            (get?_getD news j hj) (by rw [get?_getD news l hl, he])
      have := List.duplicate_iff_two_le_count.mp hdup
      omega
    obtain ⟨hlen', hgood'⟩ := resolveLoop_sound fuel dir news
      (conflictList dir news) news news' h rfl hnd hlt hgood
    have hnd' : news'.Nodup := by
      rw [List.nodup_iff_getElem?_ne_getElem?]
      intro i j hij hjlen he
      have hilen : i < news'.length := lt_trans hij hjlen
      rw [List.getElem?_eq_getElem hilen, List.getElem?_eq_getElem hjlen] at he
      have heq : news'.getD i "" = news'.getD j "" := by
        rw [List.getD_eq_getElem _ _ hilen, List.getD_eq_getElem _ _ hjlen]
        exact Option.some_inj.mp he
      exact (hgood' j hjlen).2 i hilen (Nat.ne_of_lt hij) heq
    have hdisj' : ∀ n ∈ news', n ∉ dir := by
      intro n hmem
      obtain ⟨k, hk⟩ := List.get?_of_mem hmem
      have hklen : k < news'.length := (List.get?_eq_some.mp hk).1
      have hkn : news'.getD k "" = n := by
        rw [get?_getD news' k hklen] at hk
        exact Option.some_inj.mp hk
      exact hkn ▸ (hgood' k hklen).1
    exact ⟨(conflictIndices_eq_empty_iff dir news').mpr ⟨hnd', hdisj'⟩, hnd', hdisj'⟩

/-- **C5, witness**: the duplicate plan `[x.txt, x.txt]` resolves to
`[x_(1).txt, x_(2).txt]`, whose re-detected conflict set is empty. -/
theorem c5_witness :
    handleNameConflicts 10 ∅ ["x.txt", "x.txt"] ConflictChoice.autoResolve =
      some ["x_(1).txt", "x_(2).txt"] ∧
    conflictIndices ∅ ["x_(1).txt", "x_(2).txt"] = ∅ :=
  ⟨by decide,
    (c5_resolved_conflict_free 10 ∅ ["x.txt", "x.txt"] ["x_(1).txt", "x_(2).txt"]
      (by decide)).1⟩

/-! ## Claim C8 -/

/-- **C8, counterexample.**  With all four options disabled the merged
set is not empty: the code seeds it with `ILLEGAL_CHARS_LINUX.copy()`
unconditionally, so it is `{'/'}` where the claim's union of enabled sets
is `∅`, and a name containing `/` is still flagged rather than passing. -/
theorem c8_counterexample :
    activePolicy false false false false = ({'/'} : Finset Char) ∧
    activePolicyClaimed false false false false = (∅ : Finset Char) ∧
    foundIllegal (activePolicy false false false false) ["a/b"] ≠ ∅ := by
  decide

/-- **C8, amended.**  The active policy the validator scans against is the
union of the per-platform sets whose option is enabled *plus* the
unconditional Linux base set `{'/'}`: a character is active exactly when
it is `/` or belongs to some enabled platform set. -/
theorem c8_policy_is_linux_union (w m i a : Bool) (c : Char) :
    activePolicy w m i a = ILLEGAL_CHARS_LINUX ∪ activePolicyClaimed w m i a ∧
    (c ∈ activePolicy w m i a ↔
      c ∈ ILLEGAL_CHARS_LINUX ∨ c ∈ activePolicyClaimed w m i a) := by
  have hset : activePolicy w m i a =
      ILLEGAL_CHARS_LINUX ∪ activePolicyClaimed w m i a := by
    ext x
    simp only [activePolicy, activePolicyClaimed, Finset.mem_union]
    tauto
  exact ⟨hset, by rw [hset, Finset.mem_union]⟩

end MassRenamer
